import Mathlib

/-!
Shallow embedding of the claim-relevant parts of the `math_dev` AD library:

* `src/stan/math/rev/mat/functor/integrate_1d_tsc.hpp`
  (`integrate_1d_tsc_tscg`, `integrate_1d_tsc`, `gradient_of_f`)
* `src/stan/math/prim/mat/fun/log_mix.hpp` (`log_mix`)
* `src/stan/math/prim/functor/rowwise.hpp` (`rowwise`, `rows_equal`)
* `src/stan/math/rev/fun/log1p_exp.hpp` (`log1p_exp_v_vari` and the
  `var_value` matrix overload)
* `src/stan/math/opencl/rev/trunc.hpp` (reverse callback of `trunc`)

C++ `double` is modelled by `Dbl` below: a rational payload plus the IEEE
special values that the validation helpers inspect (infinities and NaN).
External collaborators that are only declared, not defined, under `src/`
(the `de_integrator` quadrature routine, the `check_*` validation helpers,
the `operands_and_partials` accumulator and the nested-tape primitives)
are modelled from the spec; each such definition carries a doc comment
saying so.
-/

namespace Stan

/-- A C++ `double`: a finite value (rational payload) or one of the IEEE
special values.  Only the distinctions the validated code paths inspect
(finite / infinite / NaN, ordering of finite values) are modelled. -/
inductive Dbl where
  | fin : ℚ → Dbl
  | posInf : Dbl
  | negInf : Dbl
  | nan : Dbl
deriving DecidableEq

/-- `std::isfinite` on the `Dbl` model. -/
def Dbl.isFinite : Dbl → Bool
  | .fin _ => true
  | _ => false

/-- `std::isnan` on the `Dbl` model. -/
def Dbl.isNan : Dbl → Bool
  | .nan => true
  | _ => false

/-- IEEE addition on the `Dbl` model. -/
def Dbl.add : Dbl → Dbl → Dbl
  | .nan, _ => .nan
  | _, .nan => .nan
  | .posInf, .negInf => .nan
  | .negInf, .posInf => .nan
  | .posInf, _ => .posInf
  | _, .posInf => .posInf
  | .negInf, _ => .negInf
  | _, .negInf => .negInf
  | .fin p, .fin q => .fin (p + q)

/-- IEEE negation on the `Dbl` model. -/
def Dbl.neg : Dbl → Dbl
  | .fin p => .fin (-p)
  | .posInf => .negInf
  | .negInf => .posInf
  | .nan => .nan

/-- IEEE subtraction on the `Dbl` model (`a - b = a + (-b)`). -/
def Dbl.sub (a b : Dbl) : Dbl := a.add b.neg

/-- IEEE multiplication on the `Dbl` model. -/
def Dbl.mul : Dbl → Dbl → Dbl
  | .nan, _ => .nan
  | _, .nan => .nan
  | .fin p, .fin q => .fin (p * q)
  | .fin p, .posInf => if p = 0 then .nan else if 0 < p then .posInf else .negInf
  | .fin p, .negInf => if p = 0 then .nan else if 0 < p then .negInf else .posInf
  | .posInf, .fin q => if q = 0 then .nan else if 0 < q then .posInf else .negInf
  | .negInf, .fin q => if q = 0 then .nan else if 0 < q then .negInf else .posInf
  | .posInf, .posInf => .posInf
  | .posInf, .negInf => .negInf
  | .negInf, .posInf => .negInf
  | .negInf, .negInf => .posInf

/-- IEEE `<=` comparison on the `Dbl` model; any comparison with NaN is
false. -/
def Dbl.le : Dbl → Dbl → Bool
  | .nan, _ => false
  | _, .nan => false
  | .negInf, _ => true
  | _, .negInf => false
  | _, .posInf => true
  | .posInf, _ => false
  | .fin p, .fin q => decide (p ≤ q)

/-- Sum of a vector of doubles (Eigen `.sum()`). -/
def dblSum (v : List Dbl) : Dbl := v.foldr Dbl.add (.fin 0)

/-- The reported errors raised by the embedded code paths.  Validation
helpers throw (constructor named after the violated condition); `rowwise`
throws `std::invalid_argument`; collaborator failures are `thrown`. -/
inductive Err where
  | notFinite (fn name : String)
  | nanValue (fn name : String)
  | outOfRange (fn name : String)
  | inconsistentSizes (fn name1 name2 : String)
  | invalidArgument (msg : String)
  | thrown (code : ℕ)
deriving DecidableEq

/-- Modelled from the spec: "Validation helpers: `check_finite(label,
value)`-style contract, fails with a reported error before any numerical
work when violated."  (`stan/math/prim/scal/err/check_finite.hpp` is not
under `src/`.) -/
def check_finite (fn name : String) (x : Dbl) : Except Err Unit :=
  if x.isFinite then .ok () else .error (.notFinite fn name)

/-! ## Tape and nested-region observables

The reverse-mode tape is a process-wide append-only arena segmented into
nested regions (spec section 3).  The embedded integrator records its
observable effects on the tape as a list of `Event`s; `TapeState.interp`
replays them against a tape state. -/

/-- Observable effect of the integrator on the AD system:
a call to the `de_integrator` collaborator with a bound integrand,
an allocation of `k` nodes on the tape (`to_var` of the parameters, an
`operands_and_partials` build, or vari allocated by an oracle evaluation),
`start_nested`, or `recover_memory_nested`. -/
inductive Event where
  | quadCall : (Dbl → Dbl) → Event
  | alloc : ℕ → Event
  | startNested : Event
  | recoverNested : Event

/-- Is the event a quadrature invocation? -/
def Event.isQuad : Event → Bool
  | .quadCall _ => true
  | _ => false

/-- Events that neither open nor close a nested region (quadrature calls
and node allocations). -/
def Event.benign : Event → Bool
  | .quadCall _ => true
  | .alloc _ => true
  | _ => false

/-- The AD tape: current length and the stack of nested-region
checkpoints (spec section 3, "Tape"). -/
structure TapeState where
  len : ℕ
  nestedStack : List ℕ
deriving DecidableEq

/-- Modelled from the spec: effect of one event on the tape.
`start_nested` pushes the current length as a checkpoint;
`recover_memory_nested` truncates the tape back to the innermost
checkpoint and pops it (spec section 4.3). -/
def TapeState.step : TapeState → Event → TapeState
  | s, .quadCall _ => s
  | s, .alloc k => ⟨s.len + k, s.nestedStack⟩
  | s, .startNested => ⟨s.len, s.len :: s.nestedStack⟩
  | s, .recoverNested =>
      match s.nestedStack with
      | [] => s
      | c :: rest => ⟨c, rest⟩

/-- Replay a list of events against a tape state. -/
def TapeState.interp (s : TapeState) (evs : List Event) : TapeState :=
  evs.foldl TapeState.step s

/-- The integrator's additional parameters `param`: the underlying double
values (`value_of(param)`) and whether the C++ instantiation type is
statically constant (`is_constant_struct<T_param>::value`). -/
structure Param where
  vals : List Dbl
  isConst : Bool

/-- The `msgs` output stream pointer threaded through the functors. -/
abbrev Msgs := Option String

/-- The integrand oracle `f(x, param, msgs)` (doubles in, double out). -/
abbrev FFun := Dbl → List Dbl → Msgs → Dbl

/-- The analytic gradient oracle `g(x, param, n, msgs)`; `n` is the
1-based component selector passed as `static_cast<int>(n+1)` at the
call sites. -/
abbrev GFun := Dbl → List Dbl → ℕ → Msgs → Dbl

/-- Modelled from the spec: the `de_integrator` quadrature collaborator,
"`quadrature(oracle: double -> double, a, b, target_relative_error,
target_absolute_error) -> double`".  It may allocate tape nodes while
evaluating the integrand (reported in its event list) and may fail
(numerical non-convergence or an oracle exception), hence the
`Except` result. -/
abbrev Quad := (Dbl → Dbl) → Dbl → Dbl → Dbl → Dbl → List Event × Except Err Dbl

/-- A quadrature collaborator that always succeeds, computes `Q`, and
touches no tape. -/
def pureQuad (Q : (Dbl → Dbl) → Dbl → Dbl → Dbl → Dbl → Dbl) : Quad :=
  fun h a b tre tae => ([], .ok (Q h a b tre tae))

/-- The value returned by the integrator: a plain double when the
parameters are constant, or the var built by `operands_and_partials`
(node value plus the chain coefficients wired for each parameter
component). -/
structure ADResult where
  value : Dbl
  partials : List Dbl
deriving DecidableEq

/-- The gradient loop of `integrate_1d_tsc_tscg` (source lines 68-73):
for `n` from `start`, `k` components remaining, run one quadrature of
`g` bound to `value_of(param)` and the 1-based component index `n+1`.
A quadrature failure propagates (no try/catch in this mode). -/
def tscgGrad (quad : Quad) (g : GFun) (vals : List Dbl) (msgs : Msgs)
    (a b tre tae : Dbl) : ℕ → ℕ → List Event × Except Err (List Dbl)
  | _, 0 => ([], .ok [])
  | n, k + 1 =>
      let h := fun x => g x vals (n + 1) msgs
      match quad h a b tre tae with
      | (evs, .error e) => (Event.quadCall h :: evs, .error e)
      | (evs, .ok v) =>
          match tscgGrad quad g vals msgs a b tre tae (n + 1) k with
          | (evs2, res) => (Event.quadCall h :: evs ++ evs2, res.map (v :: ·))

/-- `integrate_1d_tsc_tscg` (source lines 50-92): check both bounds are
finite; in the non-constant ("hard") case run one quadrature of `g` per
parameter component, then one quadrature of `f` at `value_of(param)`,
and build one `operands_and_partials` node (one `alloc`); in the
constant ("easy") case run a single quadrature of `f`. -/
def integrate_1d_tsc_tscg (quad : Quad) (f : FFun) (g : GFun) (a b : Dbl)
    (param : Param) (msgs : Msgs) (tre tae : Dbl) :
    List Event × Except Err ADResult :=
  match check_finite "integrate_1d_tsc" "lower limit" a with
  | .error e => ([], .error e)
  | .ok _ =>
  match check_finite "integrate_1d_tsc" "upper limit" b with
  | .error e => ([], .error e)
  | .ok _ =>
  if param.isConst = false then
    match tscgGrad quad g param.vals msgs a b tre tae 0 param.vals.length with
    | (evs, .error e) => (evs, .error e)
    | (evs, .ok grad) =>
      let h := fun x => f x param.vals msgs
      match quad h a b tre tae with
      | (evs2, .error e) => (evs ++ Event.quadCall h :: evs2, .error e)
      | (evs2, .ok val) =>
          (evs ++ Event.quadCall h :: evs2 ++ [Event.alloc 1],
           .ok ⟨val, grad⟩)
  else
    let h := fun x => f x param.vals msgs
    match quad h a b tre tae with
    | (evs, .error e) => (Event.quadCall h :: evs, .error e)
    | (evs, .ok val) => (Event.quadCall h :: evs, .ok ⟨val, []⟩)

/-- The gradient loop of `integrate_1d_tsc` (source lines 153-158): for
each component `n` (0-based, selecting `clean_param_vec[n]`), one
quadrature of the closure binding `gradient_of_f` to `f`, the fresh
differentiable copy of the parameters, and that component.  `fgrad x
vals n msgs` abstracts the double returned by that closure at abscissa
`x`.  A failure stops the loop and propagates. -/
def tscGrad (quad : Quad) (fgrad : Dbl → List Dbl → ℕ → Msgs → Dbl)
    (vals : List Dbl) (msgs : Msgs) (a b tre tae : Dbl) :
    ℕ → ℕ → List Event × Except Err (List Dbl)
  | _, 0 => ([], .ok [])
  | n, k + 1 =>
      let h := fun x => fgrad x vals n msgs
      match quad h a b tre tae with
      | (evs, .error e) => (Event.quadCall h :: evs, .error e)
      | (evs, .ok v) =>
          match tscGrad quad fgrad vals msgs a b tre tae (n + 1) k with
          | (evs2, res) => (Event.quadCall h :: evs ++ evs2, res.map (v :: ·))

/-- `integrate_1d_tsc` (source lines 125-173): check both bounds are
finite; run the value quadrature of `f` at `value_of(param)`; when the
parameters are differentiable, `start_nested`, allocate the fresh
differentiable parameter copy (`to_var`, `N` nodes), run the per-component
gradient quadratures, and `recover_memory_nested` both in the
`catch` block (rethrowing the exception) and on the normal path, then
build one `operands_and_partials` node. -/
def integrate_1d_tsc (quad : Quad) (f : FFun)
    (fgrad : Dbl → List Dbl → ℕ → Msgs → Dbl) (a b : Dbl) (param : Param)
    (msgs : Msgs) (tre tae : Dbl) : List Event × Except Err ADResult :=
  match check_finite "integrate_1d_tsc" "lower limit" a with
  | .error e => ([], .error e)
  | .ok _ =>
  match check_finite "integrate_1d_tsc" "upper limit" b with
  | .error e => ([], .error e)
  | .ok _ =>
  let h := fun x => f x param.vals msgs
  match quad h a b tre tae with
  | (evs0, .error e) => (Event.quadCall h :: evs0, .error e)
  | (evs0, .ok val) =>
    if param.isConst = false then
      let N := param.vals.length
      let pre := Event.quadCall h :: evs0 ++ [Event.startNested, Event.alloc N]
      match tscGrad quad fgrad param.vals msgs a b tre tae 0 N with
      | (gevs, .error e) => (pre ++ gevs ++ [Event.recoverNested], .error e)
      | (gevs, .ok results) =>
          (pre ++ gevs ++ [Event.recoverNested, Event.alloc 1],
           .ok ⟨val, results⟩)
    else
      (Event.quadCall h :: evs0, .ok ⟨val, []⟩)

/-! ## `log_mix` (src/stan/math/prim/mat/fun/log_mix.hpp)

Two views of the same source function.  `log_mix_val` / `log_mix_dtheta` /
`log_mix_dlambda` embed the numeric semantics of lines 54-95 over an
arbitrary field (instantiated at `ℝ` with `Real.exp` / `Real.log` in the
theorems), for inputs that pass the validation phase.  `log_mixD` embeds
the full control flow over `Dbl` in source order: the `lam_dbl`
extraction of lines 59-63 (which reads `lam_vec[n][m]` for every
`m < length(theta)` and therefore faults on a `lambda[n]` shorter than
`theta` before any check can run), the validation sequence of lines
65-72, then the computation and the single `operands_and_partials.build`
tape allocation. -/

/-- Modelled from the spec: `log_sum_exp(v) = log (Σ exp vᵢ)`
(`stan/math/prim/mat/fun/log_sum_exp.hpp` is not under `src/`).
`e`/`l` stand for the scalar `exp`/`log` functions. -/
def log_sum_exp {α : Type} [Field α] (e l : α → α) (v : List α) : α :=
  l (v.map e).sum

/-- `logp` of `log_mix` (source lines 74-77): for each mixture component
`n`, `log_sum_exp` of the vector with entries `lambda[n][m] + log
theta[m]`. -/
def log_mix_logp {α : Type} [Field α] (e l : α → α) (theta : List α)
    (lambda : List (List α)) : List α :=
  lambda.map (fun lam =>
    log_sum_exp e l (List.zipWith (fun lm th => lm + l th) lam theta))

/-- The value returned by `log_mix` (source line 95): `logp.sum()`. -/
def log_mix_val {α : Type} [Field α] (e l : α → α) (theta : List α)
    (lambda : List (List α)) : α :=
  (log_mix_logp e l theta lambda).sum

/-- The `theta` partials of `log_mix` (source lines 81-86):
`derivs.rowwise().sum()` where `derivs(m, n) = exp(lambda[n][m] -
logp[n])`; the row-wise sum is a fold of element-wise sums over the
columns. -/
def log_mix_dtheta {α : Type} [Field α] (e l : α → α) (theta : List α)
    (lambda : List (List α)) : List α :=
  (List.zipWith (fun lam lp => lam.map (fun lm => e (lm - lp))) lambda
      (log_mix_logp e l theta lambda)).foldr
    (fun col acc => List.zipWith (· + ·) col acc)
    (List.replicate theta.length 0)

/-- The `lambda` partials of `log_mix` (source lines 88-93):
`derivs.col(n).cwiseProduct(theta_dbl)`. -/
def log_mix_dlambda {α : Type} [Field α] (e l : α → α) (theta : List α)
    (lambda : List (List α)) : List (List α) :=
  List.zipWith
    (fun lam lp => List.zipWith (fun lm th => e (lm - lp) * th) lam theta)
    lambda (log_mix_logp e l theta lambda)

/-- Modelled from the spec: `check_bounded` — every entry of `xs` must
satisfy `lo <= x <= hi` under IEEE comparison (a NaN entry fails the
comparison and is rejected).  (`check_bounded.hpp` is not under
`src/`.) -/
def check_bounded (fn name : String) (xs : List Dbl) (lo hi : Dbl) :
    Except Err Unit :=
  if xs.all (fun x => lo.le x && x.le hi) then .ok ()
  else .error (.outOfRange fn name)

/-- Modelled from the spec: `check_not_nan` on a vector
(`check_not_nan.hpp` is not under `src/`). -/
def check_not_nan (fn name : String) (xs : List Dbl) : Except Err Unit :=
  if xs.all (fun x => !x.isNan) then .ok () else .error (.nanValue fn name)

/-- Modelled from the spec: `check_finite` on a vector
(`check_finite.hpp` is not under `src/`). -/
def check_finite_vec (fn name : String) (xs : List Dbl) : Except Err Unit :=
  if xs.all (fun x => x.isFinite) then .ok ()
  else .error (.notFinite fn name)

/-- Modelled from the spec: `check_consistent_sizes` — "Must reject
mismatched edge/value sizes" — two vector arguments must have equal
length (`check_consistent_sizes.hpp` is not under `src/`). -/
def check_consistent_sizes (fn name1 : String) (xs : List Dbl)
    (name2 : String) (ys : List Dbl) : Except Err Unit :=
  if xs.length = ys.length then .ok ()
  else .error (.inconsistentSizes fn name1 name2)

/-- The per-component validation loop of `log_mix` (source lines 68-72):
for each `n`, `check_not_nan`, `check_finite` and
`check_consistent_sizes` against `theta`. -/
def log_mix_checkLam (theta : List Dbl) : List (List Dbl) → Except Err Unit
  | [] => .ok ()
  | lam :: rest =>
    match check_not_nan "log_mix" "lambda" lam with
    | .error e => .error e
    | .ok _ =>
    match check_finite_vec "log_mix" "lambda" lam with
    | .error e => .error e
    | .ok _ =>
    match check_consistent_sizes "log_mix" "theta" theta "lambda" lam with
    | .error e => .error e
    | .ok _ => log_mix_checkLam theta rest

/-- The full validation phase of `log_mix` (source lines 65-72). -/
def log_mix_checks (theta : List Dbl) (lambda : List (List Dbl)) :
    Except Err Unit :=
  match check_bounded "log_mix" "theta" theta (.fin 0) (.fin 1) with
  | .error e => .error e
  | .ok _ =>
  match check_not_nan "log_mix" "theta" theta with
  | .error e => .error e
  | .ok _ =>
  match check_finite_vec "log_mix" "theta" theta with
  | .error e => .error e
  | .ok _ => log_mix_checkLam theta lambda

/-- How a C++ call ends: a normal return, a thrown (reported) error, or
a fault — an out-of-bounds container access, i.e. an assertion abort or
undefined behavior, never a reported error. -/
inductive Outcome (α : Type) where
  | ok : α → Outcome α
  | thrown : Err → Outcome α
  | fault : Outcome α
deriving DecidableEq

/-- One column of the `lam_dbl` extraction of `log_mix` (source lines
59-63): `lam_dbl(m, n) = value_of(lam_vec[n][m])` for every
`m < M = length(theta)`, performed before any validation; a read past
the end of `lam_vec[n]` is an out-of-bounds access (`none`). -/
def lam_dbl_col (M : ℕ) (lam : List Dbl) : Option (List Dbl) :=
  (List.range M).mapM (fun m => lam[m]?)

/-- `log_mix` over `Dbl` with its tape effect, in source order: the
argument extraction of lines 54-63 (`value_of` is the identity on
doubles; the `lam_dbl` reads happen before any check and fault on a
`lambda[n]` shorter than `theta`), the validation phase of lines 65-72
(on the original `lambda[n]` vectors), then the computation of lines
74-95 over the extracted `lam_dbl` matrix and the single
`operands_and_partials.build` node allocation.  On a validation error or
a fault the tape is returned unchanged.  `e`/`l` are the scalar
`exp`/`log` routines on doubles. -/
def log_mixD (e l : Dbl → Dbl) (theta : List Dbl) (lambda : List (List Dbl))
    (tape : ℕ) : ℕ × Outcome (Dbl × List Dbl × List (List Dbl)) :=
  match lambda.mapM (lam_dbl_col theta.length) with
  | none => (tape, .fault)
  | some lamCols =>
    match log_mix_checks theta lambda with
    | .error er => (tape, .thrown er)
    | .ok _ =>
      let logp := lamCols.map (fun lam =>
        l (dblSum ((List.zipWith (fun lm th => Dbl.add lm (l th)) lam
          theta).map e)))
      let derivCols := List.zipWith
        (fun lam lp => lam.map (fun lm => e (Dbl.sub lm lp))) lamCols logp
      let dtheta := derivCols.foldr
        (fun col acc => List.zipWith Dbl.add col acc)
        (List.replicate theta.length (.fin 0))
      let dlambda := List.zipWith
        (fun lam lp => List.zipWith
          (fun lm th => Dbl.mul (e (Dbl.sub lm lp)) th) lam theta)
        lamCols logp
      (tape + 1, .ok (dblSum logp, dtheta, dlambda))

/-! ## `rowwise` (src/stan/math/prim/functor/rowwise.hpp)

The iterated inputs (the arguments before the functor in the C++
parameter pack) are modelled as a nonempty list of matrices, a matrix
being its list of rows; the functor together with the trailing extra
arguments `t2` is modelled as `f`, which receives the list of `i`-th rows
and the tape, and returns the produced row (already `as_row_vector`-ed)
and the new tape. -/

/-- A matrix as its list of rows. -/
abbrev RMat := List (List ℚ)

/-- `rows` of a matrix. -/
def rmatRows (x : RMat) : ℕ := x.length

/-- `rows_equal` (source lines 24-29): every input's row count equals the
first input's. -/
def rows_equal (x1 : RMat) (xs : List RMat) : Bool :=
  ((x1 :: xs).map rmatRows).all (fun i => i = rmatRows x1)

/-- The iteration of `rowwise` (source lines 96-110): evaluate `f` on the
tuple of `i`-th rows for `i = 0, …, rs-1` in order, threading the tape,
and collect the produced rows. -/
def rowwise_iters (f : List (List ℚ) → ℕ → ℕ × List ℚ) (inputs : List RMat) :
    ℕ → ℕ → ℕ → ℕ × List (List ℚ)
  | _, 0, s => (s, [])
  | i, k + 1, s =>
      match f (inputs.map (fun m => m.getD i [])) s with
      | (s1, r) =>
          match rowwise_iters f inputs (i + 1) k s1 with
          | (s2, rest) => (s2, r :: rest)

/-- `rowwise` (source lines 63-113): check that the iterated inputs all
have the same number of rows, throwing `std::invalid_argument` before the
functor is evaluated otherwise, then apply the functor row by row. -/
def rowwise (x1 : RMat) (xs : List RMat)
    (f : List (List ℚ) → ℕ → ℕ × List ℚ) (tape : ℕ) :
    ℕ × Except Err RMat :=
  if rows_equal x1 xs = false then
    (tape, .error (.invalidArgument
      "Inputs to be iterated over must have the same number of rows!"))
  else
    match rowwise_iters f (x1 :: xs) 0 (rmatRows x1) tape with
    | (s, rowsOut) => (s, .ok rowsOut)

/-! ## `log1p_exp` reverse-mode node (src/stan/math/rev/fun/log1p_exp.hpp)

The scalar formulas `log1p_exp` and `inv_logit`
(`stan/math/prim/fun/log1p_exp.hpp`, `inv_logit.hpp`) are leaf plug-ins
not under `src/`; they appear as the function parameters
`log1p_exp_prim` and `inv_logit_prim` (the spec calls their contract
`(value) -> derivative_coefficient`). -/

/-- Node value of the scalar `log1p_exp_v_vari` (source line 15):
`log1p_exp(avi->val_)`. -/
def log1p_exp_v_vari_value (log1p_exp_prim : ℚ → ℚ) (aval : ℚ) : ℚ :=
  log1p_exp_prim aval

/-- `chain()` of the scalar `log1p_exp_v_vari` (source line 16): the new
operand adjoint after `avi_->adj_ += adj_ * inv_logit(avi_->val_)`. -/
def log1p_exp_v_vari_chain (inv_logit_prim : ℚ → ℚ)
    (aval aadj nodeAdj : ℚ) : ℚ :=
  aadj + nodeAdj * inv_logit_prim aval

/-- Value block of the `var_value` matrix overload of `log1p_exp`
(source line 37): `log1p_exp(x.val())`, elementwise. -/
def log1p_exp_mat_value (log1p_exp_prim : ℚ → ℚ) (xval : List ℚ) : List ℚ :=
  xval.map log1p_exp_prim

/-- Reverse callback of the `var_value` matrix overload (source line 38):
the new operand adjoint block after
`x.adj().array() += vi.adj().array() * inv_logit(x.val().array())`. -/
def log1p_exp_mat_chain (inv_logit_prim : ℚ → ℚ)
    (xval xadj viadj : List ℚ) : List ℚ :=
  List.zipWith (fun av p => av + p.2 * inv_logit_prim p.1) xadj
    (xval.zip viadj)

/-- The standard-basis adjoint seed: `1` at position `i`, `0` elsewhere
(the incoming adjoint when the gradient of output element `i` is
queried). -/
def adjSeed (n i : ℕ) : List ℚ :=
  (List.range n).map (fun j => if j = i then 1 else 0)

/-! ## `gradient_of_f` (integrate_1d_tsc.hpp lines 98-105)

The adjoint state of the nested tape region is a map from node index to
adjoint.  `f(x, param, msgs).grad()` is abstracted by `fbar`: `fbar x
param msgs i` is the contribution the reverse pass over the freshly built
expression accumulates into node `i`'s adjoint (the reverse pass adds
into whatever adjoints it finds). -/

/-- Adjoints of the nodes in the current nested region, by node index. -/
abbrev AdjState := ℕ → Dbl

/-- `set_zero_all_adjoints_nested` — modelled from the spec: zeroes every
adjoint in the current nested region (`rev/core` is not under `src/`). -/
def set_zero_all_adjoints_nested (_ : AdjState) : AdjState :=
  fun _ => .fin 0

/-- `gradient_of_f` (source lines 98-105): zero all nested adjoints, run
`f(x, param, msgs).grad()` — which accumulates `fbar x param msgs i`
into each node adjoint `i` — and return `param_n.adj()`. -/
def gradient_of_f (fbar : Dbl → List Dbl → Msgs → ℕ → Dbl) (x : Dbl)
    (param : List Dbl) (param_n : ℕ) (msgs : Msgs) (s : AdjState) : Dbl :=
  let s0 := set_zero_all_adjoints_nested s
  let s1 := fun i => Dbl.add (s0 i) (fbar x param msgs i)
  s1 param_n

/-! ## `trunc` reverse callback (src/stan/math/opencl/rev/trunc.hpp) -/

/-- `std::trunc` on the `Dbl` model (round toward zero). -/
def dblTrunc : Dbl → Dbl
  | .fin q => .fin (if 0 ≤ q then (⌊q⌋ : ℚ) else (⌈q⌉ : ℚ))
  | .posInf => .posInf
  | .negInf => .negInf
  | .nan => .nan

/-- The kernel-generator `select(c, a, b)` at one element. -/
def dblSelect (c : Bool) (t f : Dbl) : Dbl := if c then t else f

/-- `NOT_A_NUMBER`. -/
def NOT_A_NUMBER : Dbl := .nan

/-- Value block of `trunc` on a `var_value` matrix (source line 23):
`trunc(A.val())`. -/
def trunc_val (Aval : List Dbl) : List Dbl := Aval.map dblTrunc

/-- Reverse callback of `trunc` (source line 24): the operand adjoint
block after `A.adj() = select(isnan(A.val()), NOT_A_NUMBER, A.adj())`.
The callback receives the result node `res` (its adjoint block is the
`viAdj` argument) but does not use it. -/
def trunc_chain (viAdj Aval Aadj : List Dbl) : List Dbl :=
  List.zipWith (fun v a => dblSelect v.isNan NOT_A_NUMBER a) Aval Aadj

/-! ## Concrete collaborators used to exercise the embeddings -/

/-- A concrete integrand oracle that returns `0` everywhere. -/
def fZero : FFun := fun _ _ _ => .fin 0

/-- A concrete analytic-gradient oracle that returns `1` everywhere. -/
def gOne : GFun := fun _ _ _ _ => .fin 1

/-- A concrete `gradient_of_f` closure semantics returning `1`
everywhere. -/
def fgradOne : Dbl → List Dbl → ℕ → Msgs → Dbl := fun _ _ _ _ => .fin 1

/-- A quadrature collaborator that succeeds on integrands vanishing at
`0` (such as `fZero`-based closures) and fails — after allocating two
nodes while sampling the oracle — on the others (such as `fgradOne`-based
closures). -/
def quadFail : Quad := fun h _ _ _ _ =>
  if h (.fin 0) = .fin 0 then ([], .ok (.fin 0))
  else ([.alloc 2], .error (.thrown 7))

/-! ## Helper lemmas -/

theorem dbl_zero_add (d : Dbl) : Dbl.add (.fin 0) d = d := by
  cases d <;> simp [Dbl.add]

theorem getD_zipWith_elem {α β γ : Type} (f : α → β → γ) (l1 : List α)
    (l2 : List β) (i : ℕ) (d1 : α) (d2 : β) (d3 : γ) (h1 : i < l1.length)
    (h2 : i < l2.length) :
    (List.zipWith f l1 l2).getD i d3 = f (l1.getD i d1) (l2.getD i d2) := by
  induction l1 generalizing l2 i with
  | nil => simp at h1
  | cons a t ih =>
    cases l2 with
    | nil => simp at h2
    | cons b t2 =>
      cases i with
      | zero => simp
      | succ j =>
        simp only [List.zipWith_cons_cons, List.getD_cons_succ]
        exact ih t2 j (by simpa using h1) (by simpa using h2)

theorem getD_map_elem {α β : Type} (f : α → β) (l : List α) (i : ℕ) (d : β)
    (da : α) (h : i < l.length) : (l.map f).getD i d = f (l.getD i da) := by
  induction l generalizing i with
  | nil => simp at h
  | cons a t ih =>
    cases i with
    | zero => simp
    | succ j =>
      simp only [List.map_cons, List.getD_cons_succ]
      exact ih j (by simpa using h)

theorem getD_replicate_self {α : Type} (n i : ℕ) (x : α) :
    (List.replicate n x).getD i x = x := by
  induction n generalizing i with
  | zero => simp
  | succ m ih =>
    cases i with
    | zero => simp [List.replicate]
    | succ j => simp only [List.replicate, List.getD_cons_succ]; exact ih j

/-! ## Claim theorems -/

/-- C3: if the lower bound `a` or the upper bound `b` is non-finite, both
`integrate_1d_tsc` and `integrate_1d_tsc_tscg` fail with the reported
finite-bound validation error before any quadrature evaluation (the event
log is empty), leaving the tape unmodified. -/
theorem integrate_1d_nonfinite_bound_rejected (quad : Quad) (f : FFun)
    (g : GFun) (fgrad : Dbl → List Dbl → ℕ → Msgs → Dbl) (a b : Dbl)
    (p : Param) (msgs : Msgs) (tre tae : Dbl)
    (hab : a.isFinite = false ∨ b.isFinite = false) :
    ∃ nm, integrate_1d_tsc_tscg quad f g a b p msgs tre tae
        = ([], .error (.notFinite "integrate_1d_tsc" nm))
      ∧ integrate_1d_tsc quad f fgrad a b p msgs tre tae
        = ([], .error (.notFinite "integrate_1d_tsc" nm)) := by
  by_cases ha : a.isFinite = true
  · have hb : b.isFinite = false := by
      rcases hab with h | h
      · rw [h] at ha; cases ha
      · exact h
    exact ⟨"upper limit",
      by simp [integrate_1d_tsc_tscg, check_finite, ha, hb],
      by simp [integrate_1d_tsc, check_finite, ha, hb]⟩
  · have ha' : a.isFinite = false := by simpa using ha
    exact ⟨"lower limit",
      by simp [integrate_1d_tsc_tscg, check_finite, ha'],
      by simp [integrate_1d_tsc, check_finite, ha']⟩

/-- Witness for C3 at `a = +infinity`. -/
theorem integrate_1d_nonfinite_bound_rejected_witness :
    (Dbl.posInf.isFinite = false ∨ (Dbl.fin 1).isFinite = false)
    ∧ ∃ nm, integrate_1d_tsc_tscg quadFail fZero gOne Dbl.posInf (.fin 1)
          ⟨[.fin 2], false⟩ none (.fin 1) (.fin 1)
        = ([], .error (.notFinite "integrate_1d_tsc" nm))
      ∧ integrate_1d_tsc quadFail fZero fgradOne Dbl.posInf (.fin 1)
          ⟨[.fin 2], false⟩ none (.fin 1) (.fin 1)
        = ([], .error (.notFinite "integrate_1d_tsc" nm)) :=
  ⟨Or.inl rfl,
   integrate_1d_nonfinite_bound_rejected quadFail fZero gOne fgradOne
     Dbl.posInf (.fin 1) ⟨[.fin 2], false⟩ none (.fin 1) (.fin 1)
     (Or.inl rfl)⟩

/-- C7: when the iterated inputs of `rowwise` have differing numbers of
rows, `rowwise` throws the reported `std::invalid_argument` shape error,
returns the tape unchanged, and never evaluates the supplied functor (the
output is the same for every functor). -/
theorem rowwise_shape_mismatch_throws (x1 : RMat) (xs : List RMat)
    (f f2 : List (List ℚ) → ℕ → ℕ × List ℚ) (tape : ℕ)
    (h : rows_equal x1 xs = false) :
    rowwise x1 xs f tape
      = (tape, .error (.invalidArgument
          "Inputs to be iterated over must have the same number of rows!"))
    ∧ rowwise x1 xs f tape = rowwise x1 xs f2 tape := by
  constructor <;> simp [rowwise, h]

/-- Witness for C7 on a 3-row and a 4-row input. -/
theorem rowwise_shape_mismatch_throws_witness :
    rows_equal [[1], [2], [3]] [[[1], [2], [3], [4]]] = false
    ∧ (rowwise [[1], [2], [3]] [[[1], [2], [3], [4]]]
          (fun r s => (s + 5, r.headD [])) 11
        = (11, .error (.invalidArgument
            "Inputs to be iterated over must have the same number of rows!"))
      ∧ rowwise [[1], [2], [3]] [[[1], [2], [3], [4]]]
            (fun r s => (s + 5, r.headD [])) 11
          = rowwise [[1], [2], [3]] [[[1], [2], [3], [4]]]
              (fun _ s => (s, [])) 11) :=
  ⟨by decide,
   rowwise_shape_mismatch_throws [[1], [2], [3]] [[[1], [2], [3], [4]]]
     (fun r s => (s + 5, r.headD [])) (fun _ s => (s, [])) 11 (by decide)⟩

/-- C9: `gradient_of_f` zeroes every adjoint of the nested region before
running the reverse pass, so the adjoint it returns equals the reverse
pass contribution of `f` at `(x, param)` alone and is identical for any
two prior adjoint states. -/
theorem gradient_of_f_adjoint_state_independent
    (fbar : Dbl → List Dbl → Msgs → ℕ → Dbl) (x : Dbl) (param : List Dbl)
    (param_n : ℕ) (msgs : Msgs) (s s2 : AdjState) :
    gradient_of_f fbar x param param_n msgs s
      = gradient_of_f fbar x param param_n msgs s2
    ∧ gradient_of_f fbar x param param_n msgs s
      = fbar x param msgs param_n := by
  refine ⟨?_, ?_⟩ <;>
    simp [gradient_of_f, set_zero_all_adjoints_nested, dbl_zero_add]

/-- C10: the reverse callback of `trunc` on a `var_value` matrix is
independent of the result node's incoming adjoint, and for each element
it keeps the operand's adjoint entry when the operand's value there is
not NaN and writes NaN when it is. -/
theorem trunc_chain_frame (viAdj viAdj2 Aval Aadj : List Dbl) (i : ℕ)
    (hi : i < Aval.length) (hlen : Aadj.length = Aval.length) :
    trunc_chain viAdj Aval Aadj = trunc_chain viAdj2 Aval Aadj
    ∧ (trunc_chain viAdj Aval Aadj).getD i (.fin 0)
        = (if (Aval.getD i .nan).isNan then Dbl.nan
           else Aadj.getD i (.fin 0)) := by
  constructor
  · rfl
  · rw [trunc_chain,
      getD_zipWith_elem (fun v a => dblSelect v.isNan NOT_A_NUMBER a) Aval
        Aadj i Dbl.nan (Dbl.fin 0) (Dbl.fin 0) hi (by rw [hlen]; exact hi)]
    by_cases hn : (Aval.getD i Dbl.nan).isNan
    · simp [dblSelect, NOT_A_NUMBER, hn]
    · simp [dblSelect, NOT_A_NUMBER, hn]

/-- Witness for C10 on a block with one NaN and one finite value. -/
theorem trunc_chain_frame_witness :
    (1 < [Dbl.nan, Dbl.fin 3].length
      ∧ [Dbl.fin 5, Dbl.fin 7].length = [Dbl.nan, Dbl.fin 3].length)
    ∧ (trunc_chain [Dbl.fin 9, Dbl.fin 9] [Dbl.nan, Dbl.fin 3]
          [Dbl.fin 5, Dbl.fin 7]
        = trunc_chain [Dbl.fin 0, Dbl.fin 4] [Dbl.nan, Dbl.fin 3]
            [Dbl.fin 5, Dbl.fin 7]
      ∧ (trunc_chain [Dbl.fin 9, Dbl.fin 9] [Dbl.nan, Dbl.fin 3]
            [Dbl.fin 5, Dbl.fin 7]).getD 1 (.fin 0)
          = (if (([Dbl.nan, Dbl.fin 3]).getD 1 Dbl.nan).isNan then Dbl.nan
             else ([Dbl.fin 5, Dbl.fin 7]).getD 1 (.fin 0))) :=
  ⟨⟨by decide, by decide⟩,
   trunc_chain_frame [Dbl.fin 9, Dbl.fin 9] [Dbl.fin 0, Dbl.fin 4]
     [Dbl.nan, Dbl.fin 3] [Dbl.fin 5, Dbl.fin 7] 1 (by decide) (by decide)⟩

theorem getD_range_elem (n i : ℕ) (h : i < n) :
    (List.range n).getD i 0 = i := by
  rw [List.getD_eq_getElem _ _ (by simpa using h)]
  simp

theorem log1p_exp_mat_chain_getD (I : ℚ → ℚ) (xval xadj viadj : List ℚ)
    (i : ℕ) (hi : i < xval.length) (h1 : xadj.length = xval.length)
    (h2 : viadj.length = xval.length) :
    (log1p_exp_mat_chain I xval xadj viadj).getD i 0
      = xadj.getD i 0 + viadj.getD i 0 * I (xval.getD i 0) := by
  have hz : xval.zip viadj = List.zipWith Prod.mk xval viadj := rfl
  rw [log1p_exp_mat_chain, hz,
    getD_zipWith_elem (fun av p => av + p.2 * I p.1) xadj
      (List.zipWith Prod.mk xval viadj) i 0 (0, 0) 0
      (by rw [h1]; exact hi) (by simpa [h2] using hi),
    getD_zipWith_elem Prod.mk xval viadj i 0 0 (0, 0) hi
      (by rw [h2]; exact hi)]

/-- C4: the `var_value` matrix overload of `log1p_exp` equals, element by
element, the scalar `log1p_exp_v_vari` node: its value block applies the
scalar value formula elementwise, its reverse callback adds
`incoming_adjoint[i] * inv_logit(x.value[i])` into the operand's adjoint
entry exactly as the scalar `chain()` does, and seeding the vectorized
callback with the basis adjoint at `i` yields the gradient the scalar
node produces on `x[i]` alone. -/
theorem log1p_exp_vectorization_equivalence (L I : ℚ → ℚ)
    (xval xadj viadj : List ℚ) (i : ℕ) (hi : i < xval.length)
    (h1 : xadj.length = xval.length) (h2 : viadj.length = xval.length) :
    (log1p_exp_mat_value L xval).getD i 0
      = log1p_exp_v_vari_value L (xval.getD i 0)
    ∧ (log1p_exp_mat_chain I xval xadj viadj).getD i 0
      = log1p_exp_v_vari_chain I (xval.getD i 0) (xadj.getD i 0)
          (viadj.getD i 0)
    ∧ (log1p_exp_mat_chain I xval (List.replicate xval.length 0)
          (adjSeed xval.length i)).getD i 0
      = log1p_exp_v_vari_chain I (xval.getD i 0) 0 1 := by
  refine ⟨?_, ?_, ?_⟩
  · rw [log1p_exp_mat_value, getD_map_elem L xval i 0 0 hi]; rfl
  · rw [log1p_exp_mat_chain_getD I xval xadj viadj i hi h1 h2]; rfl
  · rw [log1p_exp_mat_chain_getD I xval (List.replicate xval.length 0)
        (adjSeed xval.length i) i hi (by simp) (by simp [adjSeed]),
      getD_replicate_self xval.length i 0, adjSeed,
      getD_map_elem (fun j => if j = i then (1 : ℚ) else 0)
        (List.range xval.length) i 0 0 (by simpa using hi),
      getD_range_elem xval.length i hi]
    simp [log1p_exp_v_vari_chain]

/-- Witness for C4 on a three-element block at index 1. -/
theorem log1p_exp_vectorization_equivalence_witness :
    (1 < [(1 : ℚ), 2, 3].length
      ∧ [(0 : ℚ), 0, 0].length = [(1 : ℚ), 2, 3].length
      ∧ [(5 : ℚ), 6, 7].length = [(1 : ℚ), 2, 3].length)
    ∧ ((log1p_exp_mat_value id [(1 : ℚ), 2, 3]).getD 1 0
        = log1p_exp_v_vari_value id (([(1 : ℚ), 2, 3]).getD 1 0)
      ∧ (log1p_exp_mat_chain id [(1 : ℚ), 2, 3] [(0 : ℚ), 0, 0]
            [(5 : ℚ), 6, 7]).getD 1 0
        = log1p_exp_v_vari_chain id (([(1 : ℚ), 2, 3]).getD 1 0)
            (([(0 : ℚ), 0, 0]).getD 1 0) (([(5 : ℚ), 6, 7]).getD 1 0)
      ∧ (log1p_exp_mat_chain id [(1 : ℚ), 2, 3]
            (List.replicate ([(1 : ℚ), 2, 3]).length 0)
            (adjSeed ([(1 : ℚ), 2, 3]).length 1)).getD 1 0
        = log1p_exp_v_vari_chain id (([(1 : ℚ), 2, 3]).getD 1 0) 0 1) :=
  ⟨⟨by decide, by decide, by decide⟩,
   log1p_exp_vectorization_equivalence id id [(1 : ℚ), 2, 3] [(0 : ℚ), 0, 0]
     [(5 : ℚ), 6, 7] 1 (by decide) (by decide) (by decide)⟩

/-- C8: with statically constant parameters, both integrators return the
result of a single plain quadrature of `f` at `value_of(param)` — the
event log is that one quadrature call: no nested region is opened, no
`operands_and_partials` node is built — and `integrate_1d_tsc_tscg`'s
output does not depend on the gradient functor `g` at all. -/
theorem integrate_1d_constant_params_single_quadrature
    (Q : (Dbl → Dbl) → Dbl → Dbl → Dbl → Dbl → Dbl) (f : FFun) (g g2 : GFun)
    (fgrad : Dbl → List Dbl → ℕ → Msgs → Dbl) (a b tre tae : Dbl)
    (p : Param) (msgs : Msgs) (ha : a.isFinite = true)
    (hb : b.isFinite = true) (hc : p.isConst = true) :
    integrate_1d_tsc_tscg (pureQuad Q) f g a b p msgs tre tae
      = ([Event.quadCall (fun x => f x p.vals msgs)],
         .ok ⟨Q (fun x => f x p.vals msgs) a b tre tae, []⟩)
    ∧ integrate_1d_tsc (pureQuad Q) f fgrad a b p msgs tre tae
      = ([Event.quadCall (fun x => f x p.vals msgs)],
         .ok ⟨Q (fun x => f x p.vals msgs) a b tre tae, []⟩)
    ∧ ∀ quad : Quad, integrate_1d_tsc_tscg quad f g a b p msgs tre tae
        = integrate_1d_tsc_tscg quad f g2 a b p msgs tre tae := by
  refine ⟨?_, ?_, ?_⟩
  · simp [integrate_1d_tsc_tscg, check_finite, ha, hb, hc, pureQuad]
  · simp [integrate_1d_tsc, check_finite, ha, hb, hc, pureQuad]
  · intro quad
    simp [integrate_1d_tsc_tscg, check_finite, ha, hb, hc]

/-- Witness for C8 with a one-component constant parameter pack. -/
theorem integrate_1d_constant_params_single_quadrature_witness :
    (Dbl.fin 0).isFinite = true ∧ (Dbl.fin 1).isFinite = true
    ∧ (Param.mk [.fin 3] true).isConst = true
    ∧ (integrate_1d_tsc_tscg (pureQuad (fun h a _ _ _ => h a)) fZero gOne
          (.fin 0) (.fin 1) ⟨[.fin 3], true⟩ none (.fin 1) (.fin 1)
        = ([Event.quadCall (fun x => fZero x [Dbl.fin 3] none)],
           .ok ⟨(fun h (a : Dbl) _ _ _ => h a)
                  (fun x => fZero x [Dbl.fin 3] none) (Dbl.fin 0)
                  (Dbl.fin 1) (Dbl.fin 1) (Dbl.fin 1), []⟩)
      ∧ integrate_1d_tsc (pureQuad (fun h a _ _ _ => h a)) fZero fgradOne
          (.fin 0) (.fin 1) ⟨[.fin 3], true⟩ none (.fin 1) (.fin 1)
        = ([Event.quadCall (fun x => fZero x [Dbl.fin 3] none)],
           .ok ⟨(fun h (a : Dbl) _ _ _ => h a)
                  (fun x => fZero x [Dbl.fin 3] none) (Dbl.fin 0)
                  (Dbl.fin 1) (Dbl.fin 1) (Dbl.fin 1), []⟩)
      ∧ ∀ quad : Quad, integrate_1d_tsc_tscg quad fZero gOne (.fin 0)
            (.fin 1) ⟨[.fin 3], true⟩ none (.fin 1) (.fin 1)
          = integrate_1d_tsc_tscg quad fZero (fun _ _ _ _ => .fin 2)
              (.fin 0) (.fin 1) ⟨[.fin 3], true⟩ none (.fin 1) (.fin 1)) :=
  ⟨rfl, rfl, rfl,
   integrate_1d_constant_params_single_quadrature (fun h a _ _ _ => h a)
     fZero gOne (fun _ _ _ _ => .fin 2) fgradOne (.fin 0) (.fin 1) (.fin 1)
     (.fin 1) ⟨[.fin 3], true⟩ none rfl rfl rfl⟩

theorem tscgGrad_pure (Q : (Dbl → Dbl) → Dbl → Dbl → Dbl → Dbl → Dbl)
    (g : GFun) (vals : List Dbl) (msgs : Msgs) (a b tre tae : Dbl)
    (k : ℕ) : ∀ n : ℕ, tscgGrad (pureQuad Q) g vals msgs a b tre tae n k
      = ((List.range k).map
           (fun j => Event.quadCall (fun x => g x vals (n + j + 1) msgs)),
         .ok ((List.range k).map
           (fun j => Q (fun x => g x vals (n + j + 1) msgs) a b tre tae))) := by
  induction k with
  | zero => intro n; simp [tscgGrad]
  | succ k ih =>
    intro n
    simp only [tscgGrad, pureQuad]
    rw [ih (n + 1)]
    simp only [List.range_succ_eq_map, List.map_cons, List.map_map,
      List.nil_append, Except.map, Prod.mk.injEq, List.cons.injEq]
    constructor
    · rw [List.singleton_append]
      refine congrArg₂ List.cons rfl ?_
      refine List.map_congr_left (fun j _ => ?_)
      simp only [Function.comp]
      rw [show n + 1 + j + 1 = n + (j + 1) + 1 by omega]
    · refine congrArg Except.ok ?_
      refine congrArg₂ List.cons rfl ?_
      refine List.map_congr_left (fun j _ => ?_)
      simp only [Function.comp]
      rw [show n + 1 + j + 1 = n + (j + 1) + 1 by omega]

/-- C1: in analytic-gradient mode with `N` differentiable parameter
components, `integrate_1d_tsc_tscg` performs exactly `N + 1` scalar
quadratures: one of the gradient functor `g` bound to `value_of(param)`
and component selector `n + 1` for each component `n` (its result
becoming gradient component `n` of the built node), and one of `f` at
`value_of(param)` whose result becomes the returned value. -/
theorem tscg_analytic_N_plus_1_quadratures
    (Q : (Dbl → Dbl) → Dbl → Dbl → Dbl → Dbl → Dbl) (f : FFun) (g : GFun)
    (a b tre tae : Dbl) (p : Param) (msgs : Msgs) (ha : a.isFinite = true)
    (hb : b.isFinite = true) (hc : p.isConst = false) :
    (integrate_1d_tsc_tscg (pureQuad Q) f g a b p msgs tre tae).1
      = (List.range p.vals.length).map
          (fun n => Event.quadCall (fun x => g x p.vals (n + 1) msgs))
        ++ [Event.quadCall (fun x => f x p.vals msgs), Event.alloc 1]
    ∧ (integrate_1d_tsc_tscg (pureQuad Q) f g a b p msgs tre tae).1.countP
        Event.isQuad = p.vals.length + 1
    ∧ (integrate_1d_tsc_tscg (pureQuad Q) f g a b p msgs tre tae).2
      = .ok ⟨Q (fun x => f x p.vals msgs) a b tre tae,
             (List.range p.vals.length).map
               (fun n => Q (fun x => g x p.vals (n + 1) msgs) a b tre tae)⟩ := by
  have hgrad := tscgGrad_pure Q g p.vals msgs a b tre tae p.vals.length 0
  have hzero : ∀ {β : Type} (h : ℕ → β),
      (List.range p.vals.length).map (fun j => h (0 + j + 1))
        = (List.range p.vals.length).map (fun j => h (j + 1)) := by
    intro β h
    refine List.map_congr_left (fun j _ => ?_)
    rw [show 0 + j + 1 = j + 1 by omega]
  have h1 : (integrate_1d_tsc_tscg (pureQuad Q) f g a b p msgs tre tae).1
      = (List.range p.vals.length).map
          (fun n => Event.quadCall (fun x => g x p.vals (n + 1) msgs))
        ++ [Event.quadCall (fun x => f x p.vals msgs), Event.alloc 1] := by
    simp only [integrate_1d_tsc_tscg, check_finite, ha, hb, hc, if_true,
      if_false, hgrad, pureQuad]
    rw [hzero (fun m => Event.quadCall (fun x => g x p.vals m msgs))]
    simp
  have h2 : (integrate_1d_tsc_tscg (pureQuad Q) f g a b p msgs tre tae).2
      = .ok ⟨Q (fun x => f x p.vals msgs) a b tre tae,
             (List.range p.vals.length).map
               (fun n => Q (fun x => g x p.vals (n + 1) msgs) a b tre tae)⟩ := by
    simp only [integrate_1d_tsc_tscg, check_finite, ha, hb, hc, if_true,
      if_false, hgrad, pureQuad]
    rw [hzero (fun m => Q (fun x => g x p.vals m msgs) a b tre tae)]
  refine ⟨h1, ?_, h2⟩
  have hcomp : (Event.isQuad ∘ fun n : ℕ =>
      Event.quadCall (fun x => g x p.vals (n + 1) msgs)) = fun _ => true :=
    funext fun _ => rfl
  rw [h1, List.countP_append, List.countP_map, hcomp]
  simp [Event.isQuad, List.countP_cons]

/-- Witness for C1 with two differentiable parameter components. -/
theorem tscg_analytic_N_plus_1_quadratures_witness :
    ((Dbl.fin 0).isFinite = true ∧ (Dbl.fin 1).isFinite = true
      ∧ (Param.mk [.fin 2, .fin 3] false).isConst = false)
    ∧ ((integrate_1d_tsc_tscg (pureQuad (fun h a _ _ _ => h a)) fZero gOne
          (.fin 0) (.fin 1) ⟨[.fin 2, .fin 3], false⟩ none (.fin 1)
          (.fin 1)).1
        = (List.range ([Dbl.fin 2, Dbl.fin 3]).length).map
            (fun n => Event.quadCall
              (fun x => gOne x [Dbl.fin 2, Dbl.fin 3] (n + 1) none))
          ++ [Event.quadCall (fun x => fZero x [Dbl.fin 2, Dbl.fin 3] none),
              Event.alloc 1]
      ∧ (integrate_1d_tsc_tscg (pureQuad (fun h a _ _ _ => h a)) fZero gOne
          (.fin 0) (.fin 1) ⟨[.fin 2, .fin 3], false⟩ none (.fin 1)
          (.fin 1)).1.countP Event.isQuad
        = ([Dbl.fin 2, Dbl.fin 3]).length + 1
      ∧ (integrate_1d_tsc_tscg (pureQuad (fun h a _ _ _ => h a)) fZero gOne
          (.fin 0) (.fin 1) ⟨[.fin 2, .fin 3], false⟩ none (.fin 1)
          (.fin 1)).2
        = .ok ⟨(fun h (a : Dbl) _ _ _ => h a)
                 (fun x => fZero x [Dbl.fin 2, Dbl.fin 3] none) (Dbl.fin 0)
                 (Dbl.fin 1) (Dbl.fin 1) (Dbl.fin 1),
               (List.range ([Dbl.fin 2, Dbl.fin 3]).length).map
                 (fun n => (fun h (a : Dbl) _ _ _ => h a)
                   (fun x => gOne x [Dbl.fin 2, Dbl.fin 3] (n + 1) none)
                   (Dbl.fin 0) (Dbl.fin 1) (Dbl.fin 1) (Dbl.fin 1))⟩) :=
  ⟨⟨rfl, rfl, rfl⟩,
   tscg_analytic_N_plus_1_quadratures (fun h a _ _ _ => h a) fZero gOne
     (.fin 0) (.fin 1) (.fin 1) (.fin 1) ⟨[.fin 2, .fin 3], false⟩ none
     rfl rfl rfl⟩

theorem interp_append (s : TapeState) (l1 l2 : List Event) :
    s.interp (l1 ++ l2) = (s.interp l1).interp l2 := by
  simp [TapeState.interp, List.foldl_append]

theorem interp_benign_stack (evs : List Event) :
    ∀ s : TapeState, evs.all Event.benign = true →
      (s.interp evs).nestedStack = s.nestedStack := by
  induction evs with
  | nil => intro s _; rfl
  | cons ev t ih =>
    intro s h
    rw [List.all_cons, Bool.and_eq_true] at h
    have hstep : (TapeState.step s ev).nestedStack = s.nestedStack := by
      cases ev <;> simp_all [Event.benign, TapeState.step]
    calc (s.interp (ev :: t)).nestedStack
        = ((TapeState.step s ev).interp t).nestedStack := rfl
      _ = (TapeState.step s ev).nestedStack := ih _ h.2
      _ = s.nestedStack := hstep

theorem tscGrad_events_benign (quad : Quad)
    (fgrad : Dbl → List Dbl → ℕ → Msgs → Dbl) (vals : List Dbl)
    (msgs : Msgs) (a b tre tae : Dbl)
    (hq : ∀ h : Dbl → Dbl, (quad h a b tre tae).1.all Event.benign = true)
    (k : ℕ) : ∀ n : ℕ,
      (tscGrad quad fgrad vals msgs a b tre tae n k).1.all Event.benign
        = true := by
  induction k with
  | zero => intro n; rfl
  | succ k ih =>
    intro n
    simp only [tscGrad]
    rcases h1 : quad (fun x => fgrad x vals n msgs) a b tre tae with ⟨evs, r⟩
    have hevs : evs.all Event.benign = true := by
      have := hq (fun x => fgrad x vals n msgs)
      rw [h1] at this
      exact this
    cases r with
    | error e => simp [Event.benign, hevs]
    | ok v =>
      rcases h2 : tscGrad quad fgrad vals msgs a b tre tae (n + 1) k
        with ⟨evs2, res⟩
      have hevs2 : evs2.all Event.benign = true := by
        have := ih (n + 1)
        rw [h2] at this
        exact this
      simp [Event.benign, List.all_append, hevs, hevs2]

theorem interp_sandwich (s0 : TapeState) (h : Dbl → Dbl) (N : ℕ)
    (gevs tail : List Event)
    (hst : ∀ s1 : TapeState, (s1.interp gevs).nestedStack = s1.nestedStack) :
    s0.interp (Event.quadCall h :: Event.startNested :: Event.alloc N ::
        (gevs ++ (Event.recoverNested :: tail)))
      = TapeState.interp ⟨s0.len, s0.nestedStack⟩ tail := by
  have h1 : s0.interp (Event.quadCall h :: Event.startNested ::
      Event.alloc N :: (gevs ++ (Event.recoverNested :: tail)))
      = TapeState.interp ⟨s0.len + N, s0.len :: s0.nestedStack⟩
          (gevs ++ (Event.recoverNested :: tail)) := rfl
  have h2 := hst ⟨s0.len + N, s0.len :: s0.nestedStack⟩
  rcases hs2 : TapeState.interp ⟨s0.len + N, s0.len :: s0.nestedStack⟩ gevs
    with ⟨l2, st2⟩
  rw [hs2] at h2
  simp only at h2
  subst h2
  rw [h1, show gevs ++ (Event.recoverNested :: tail)
      = (gevs ++ [Event.recoverNested]) ++ tail by simp, interp_append,
    interp_append, hs2]
  rfl

/-- C2: in nested-AD mode, the nested tape region opened for the
per-component gradient quadratures is exited and the tape truncated on
every exit path.  If the gradient loop fails (an oracle or quadrature
exception), the exception is propagated to the caller and replaying the
event log returns the tape to its initial state (`recover_memory_nested`
ran in the `catch` block); if it succeeds, the nested region is likewise
closed, leaving only the one `operands_and_partials` node on the outer
tape. -/
theorem tsc_nested_region_cleanup (quad : Quad) (f : FFun)
    (fgrad : Dbl → List Dbl → ℕ → Msgs → Dbl) (a b tre tae : Dbl)
    (p : Param) (msgs : Msgs) (v : Dbl) (s0 : TapeState)
    (ha : a.isFinite = true) (hb : b.isFinite = true)
    (hc : p.isConst = false)
    (hval : quad (fun x => f x p.vals msgs) a b tre tae = ([], .ok v))
    (hq : ∀ h : Dbl → Dbl, (quad h a b tre tae).1.all Event.benign = true) :
    (∀ e : Err,
        (tscGrad quad fgrad p.vals msgs a b tre tae 0 p.vals.length).2
            = .error e →
          (integrate_1d_tsc quad f fgrad a b p msgs tre tae).2 = .error e
          ∧ s0.interp (integrate_1d_tsc quad f fgrad a b p msgs tre tae).1
              = s0)
    ∧ (∀ rs : List Dbl,
        (tscGrad quad fgrad p.vals msgs a b tre tae 0 p.vals.length).2
            = .ok rs →
          (integrate_1d_tsc quad f fgrad a b p msgs tre tae).2
              = .ok ⟨v, rs⟩
          ∧ s0.interp (integrate_1d_tsc quad f fgrad a b p msgs tre tae).1
              = ⟨s0.len + 1, s0.nestedStack⟩) := by
  rcases hG : tscGrad quad fgrad p.vals msgs a b tre tae 0 p.vals.length
    with ⟨gevs, gres⟩
  have hbenign : gevs.all Event.benign = true := by
    have := tscGrad_events_benign quad fgrad p.vals msgs a b tre tae hq
      p.vals.length 0
    rw [hG] at this
    exact this
  have hstack : ∀ s1 : TapeState,
      (s1.interp gevs).nestedStack = s1.nestedStack :=
    fun s1 => interp_benign_stack gevs s1 hbenign
  constructor
  · intro e he
    simp only at he
    subst he
    have hout : integrate_1d_tsc quad f fgrad a b p msgs tre tae
        = ((Event.quadCall (fun x => f x p.vals msgs) :: [])
            ++ [Event.startNested, Event.alloc p.vals.length]
            ++ gevs ++ [Event.recoverNested], .error e) := by
      simp [integrate_1d_tsc, check_finite, ha, hb, hc, hval, hG]
    rw [hout]
    refine ⟨rfl, ?_⟩
    simp only [List.cons_append, List.nil_append, List.append_assoc]
    rw [interp_sandwich s0 (fun x => f x p.vals msgs) p.vals.length gevs []
      hstack]
    rfl
  · intro rs hrs
    simp only at hrs
    subst hrs
    have hout : integrate_1d_tsc quad f fgrad a b p msgs tre tae
        = ((Event.quadCall (fun x => f x p.vals msgs) :: [])
            ++ [Event.startNested, Event.alloc p.vals.length]
            ++ gevs ++ [Event.recoverNested, Event.alloc 1],
           .ok ⟨v, rs⟩) := by
      simp [integrate_1d_tsc, check_finite, ha, hb, hc, hval, hG]
    rw [hout]
    refine ⟨rfl, ?_⟩
    simp only [List.cons_append, List.nil_append, List.append_assoc]
    rw [interp_sandwich s0 (fun x => f x p.vals msgs) p.vals.length gevs
      [Event.alloc 1] hstack]
    rfl

/-- Witness for C2: the gradient quadrature of the first component throws
and the log replays back to the initial tape state `⟨5, []⟩`. -/
theorem tsc_nested_region_cleanup_witness :
    ((Dbl.fin 0).isFinite = true ∧ (Dbl.fin 1).isFinite = true
      ∧ (Param.mk [.fin 2] false).isConst = false
      ∧ quadFail (fun x => fZero x [Dbl.fin 2] none) (.fin 0) (.fin 1)
          (.fin 1) (.fin 1) = ([], .ok (.fin 0))
      ∧ (tscGrad quadFail fgradOne [Dbl.fin 2] none (.fin 0) (.fin 1)
          (.fin 1) (.fin 1) 0 ([Dbl.fin 2]).length).2
          = .error (.thrown 7))
    ∧ (integrate_1d_tsc quadFail fZero fgradOne (.fin 0) (.fin 1)
          ⟨[.fin 2], false⟩ none (.fin 1) (.fin 1)).2 = .error (.thrown 7)
    ∧ TapeState.interp ⟨5, []⟩
        (integrate_1d_tsc quadFail fZero fgradOne (.fin 0) (.fin 1)
          ⟨[.fin 2], false⟩ none (.fin 1) (.fin 1)).1 = ⟨5, []⟩ := by
  have hval : quadFail (fun x => fZero x [Dbl.fin 2] none) (.fin 0) (.fin 1)
      (.fin 1) (.fin 1) = ([], .ok (.fin 0)) := by
    simp [quadFail, fZero]
  have hgrad : (tscGrad quadFail fgradOne [Dbl.fin 2] none (.fin 0) (.fin 1)
      (.fin 1) (.fin 1) 0 ([Dbl.fin 2]).length).2 = .error (.thrown 7) := by
    simp [tscGrad, quadFail, fgradOne]
  have hq : ∀ h : Dbl → Dbl,
      ((quadFail h (.fin 0) (.fin 1) (.fin 1) (.fin 1)).1.all Event.benign)
        = true := by
    intro h
    by_cases hh : h (.fin 0) = Dbl.fin 0 <;> simp [quadFail, hh, Event.benign]
  exact ⟨⟨rfl, rfl, rfl, hval, hgrad⟩,
    (tsc_nested_region_cleanup quadFail fZero fgradOne (.fin 0) (.fin 1)
        (.fin 1) (.fin 1) ⟨[.fin 2], false⟩ none (.fin 0) ⟨5, []⟩ rfl rfl rfl
        hval hq).1 (.thrown 7) hgrad⟩

theorem of_mem_zipWith {α β γ : Type} {f : α → β → γ} :
    ∀ {l1 : List α} {l2 : List β} {c : γ}, c ∈ List.zipWith f l1 l2 →
      ∃ x ∈ l1, ∃ y ∈ l2, c = f x y := by
  intro l1
  induction l1 with
  | nil => intro l2 c h; simp at h
  | cons a t ih =>
    intro l2 c h
    cases l2 with
    | nil => simp at h
    | cons b t2 =>
      rw [List.zipWith_cons_cons, List.mem_cons] at h
      rcases h with h | h
      · exact ⟨a, List.mem_cons_self a t, b, List.mem_cons_self b t2, h⟩
      · rcases ih h with ⟨x, hx, y, hy, hc⟩
        exact ⟨x, List.mem_cons_of_mem a hx, y,
          List.mem_cons_of_mem b hy, hc⟩

theorem zipWith_congr_mem {α β γ : Type} (f g : α → β → γ) :
    ∀ (l1 : List α) (l2 : List β),
      (∀ x ∈ l1, ∀ y ∈ l2, f x y = g x y) →
      List.zipWith f l1 l2 = List.zipWith g l1 l2 := by
  intro l1
  induction l1 with
  | nil => intro l2 _; simp
  | cons a t ih =>
    intro l2 h
    cases l2 with
    | nil => simp
    | cons b t2 =>
      rw [List.zipWith_cons_cons, List.zipWith_cons_cons,
        h a (List.mem_cons_self a t) b (List.mem_cons_self b t2),
        ih t2 (fun x hx y hy =>
          h x (List.mem_cons_of_mem a hx) y (List.mem_cons_of_mem b hy))]

theorem foldr_zipWith_add_length {α : Type} [Field α] (M : ℕ) :
    ∀ cols : List (List α), (∀ c ∈ cols, c.length = M) →
      (cols.foldr (fun col acc => List.zipWith (· + ·) col acc)
        (List.replicate M (0 : α))).length = M := by
  intro cols
  induction cols with
  | nil => intro _; simp
  | cons c t ih =>
    intro h
    simp only [List.foldr_cons, List.length_zipWith]
    rw [ih (fun c2 hc2 => h c2 (List.mem_cons_of_mem c hc2)),
      h c (List.mem_cons_self c t)]
    exact Nat.min_self M

theorem foldr_zipWith_add_getD {α : Type} [Field α] (M m : ℕ) (hm : m < M) :
    ∀ cols : List (List α), (∀ c ∈ cols, c.length = M) →
      (cols.foldr (fun col acc => List.zipWith (· + ·) col acc)
        (List.replicate M (0 : α))).getD m 0
        = (cols.map (fun c => c.getD m 0)).sum := by
  intro cols
  induction cols with
  | nil =>
    intro _
    simp [getD_replicate_self]
  | cons c t ih =>
    intro h
    simp only [List.foldr_cons, List.map_cons, List.sum_cons]
    rw [getD_zipWith_elem (· + ·) c
        (t.foldr (fun col acc => List.zipWith (· + ·) col acc)
          (List.replicate M (0 : α))) m 0 0 0
        (by rw [h c (List.mem_cons_self c t)]; exact hm)
        (by rw [foldr_zipWith_add_length M t
            (fun c2 hc2 => h c2 (List.mem_cons_of_mem c hc2))]; exact hm),
      ih (fun c2 hc2 => h c2 (List.mem_cons_of_mem c hc2))]

theorem log_mix_dtheta_getD {α : Type} [Field α] (e l : α → α)
    (theta : List α) (lambda : List (List α)) (m : ℕ)
    (hlen : ∀ lam ∈ lambda, lam.length = theta.length)
    (hm : m < theta.length) :
    (log_mix_dtheta e l theta lambda).getD m 0
      = (List.zipWith (fun lam lp => e (lam.getD m 0 - lp)) lambda
          (log_mix_logp e l theta lambda)).sum := by
  rw [log_mix_dtheta, foldr_zipWith_add_getD theta.length m hm
    (List.zipWith (fun lam lp => lam.map (fun lm => e (lm - lp))) lambda
      (log_mix_logp e l theta lambda))
    (by
      intro c hc
      rcases of_mem_zipWith hc with ⟨lam, hlam, lp, _, rfl⟩
      simp [hlen lam hlam]),
    List.map_zipWith,
    zipWith_congr_mem _ _ lambda (log_mix_logp e l theta lambda)
      (fun lam hlam lp _ =>
        getD_map_elem (fun lm => e (lm - lp)) lam m 0 0
          (by rw [hlen lam hlam]; exact hm))]

/-- C5: `log_mix(theta, lambda)` returns the sum over `n` of
`log_sum_exp(lambda[n] + log theta)`; at the test point
`theta = {1/2, 1/2}`, `lambda = {log(1/2), log(3/2)}` (the single
log-density vector seen through `vector_seq_view`) it equals
`log(1/2 exp(log 1/2) + 1/2 exp(log 3/2))`, and the partial with respect
to `theta[m]` equals the closed form `sum over n of
exp(lambda[n][m] - logp[n])`. -/
theorem log_mix_value_and_gradient (theta : List ℝ)
    (lambda : List (List ℝ)) (m : ℕ)
    (hlen : ∀ lam ∈ lambda, lam.length = theta.length)
    (hm : m < theta.length) :
    log_mix_val Real.exp Real.log theta lambda
      = (lambda.map (fun lam => Real.log
          (((List.zipWith (fun lm th => lm + Real.log th) lam theta).map
            Real.exp).sum))).sum
    ∧ log_mix_val Real.exp Real.log [(1 : ℝ)/2, 1/2]
        [[Real.log (1/2), Real.log (3/2)]]
      = Real.log ((1/2) * Real.exp (Real.log (1/2))
          + (1/2) * Real.exp (Real.log (3/2)))
    ∧ (log_mix_dtheta Real.exp Real.log theta lambda).getD m 0
      = (List.zipWith (fun lam lp => Real.exp (lam.getD m 0 - lp)) lambda
          (log_mix_logp Real.exp Real.log theta lambda)).sum := by
  refine ⟨?_, ?_,
    log_mix_dtheta_getD Real.exp Real.log theta lambda m hlen hm⟩
  · simp [log_mix_val, log_mix_logp, log_sum_exp]
  · have h1 : (0 : ℝ) < 1/2 := by norm_num
    have h3 : (0 : ℝ) < 3/2 := by norm_num
    simp only [log_mix_val, log_mix_logp, log_sum_exp, List.map_cons,
      List.map_nil, List.zipWith_cons_cons, List.zipWith_nil_right,
      List.sum_cons, List.sum_nil, add_zero, Real.exp_add,
      Real.exp_log h1, Real.exp_log h3]
    norm_num

/-- Witness for C5 at the test point with `m = 0`. -/
theorem log_mix_value_and_gradient_witness :
    ((∀ lam ∈ [[Real.log (1/2), Real.log (3/2)]],
        lam.length = ([(1 : ℝ)/2, 1/2]).length)
      ∧ 0 < ([(1 : ℝ)/2, 1/2]).length)
    ∧ (log_mix_val Real.exp Real.log [(1 : ℝ)/2, 1/2]
          [[Real.log (1/2), Real.log (3/2)]]
        = (([[Real.log (1/2), Real.log (3/2)]]).map (fun lam => Real.log
            (((List.zipWith (fun lm th => lm + Real.log th) lam
                [(1 : ℝ)/2, 1/2]).map Real.exp).sum))).sum
      ∧ log_mix_val Real.exp Real.log [(1 : ℝ)/2, 1/2]
          [[Real.log (1/2), Real.log (3/2)]]
        = Real.log ((1/2) * Real.exp (Real.log (1/2))
            + (1/2) * Real.exp (Real.log (3/2)))
      ∧ (log_mix_dtheta Real.exp Real.log [(1 : ℝ)/2, 1/2]
            [[Real.log (1/2), Real.log (3/2)]]).getD 0 0
        = (List.zipWith (fun lam lp => Real.exp (lam.getD 0 0 - lp))
            [[Real.log (1/2), Real.log (3/2)]]
            (log_mix_logp Real.exp Real.log [(1 : ℝ)/2, 1/2]
              [[Real.log (1/2), Real.log (3/2)]])).sum) :=
  ⟨⟨by simp, by norm_num⟩,
   log_mix_value_and_gradient [(1 : ℝ)/2, 1/2]
     [[Real.log (1/2), Real.log (3/2)]] 0 (by simp) (by norm_num)⟩

/-- C6 (code bug): for a `lambda[n]` shorter than `theta` the claim
fails on the code: the `lam_dbl` extraction loop (source lines 59-63)
reads `lam_vec[n][m]` for every `m < length(theta)` before
`check_consistent_sizes` (line 71) can run, so the call faults on an
out-of-bounds read instead of reporting the size mismatch.  The reported
`InconsistentSizes` error with the tape unchanged is reached only when
every `lambda[n]` has at least `length(theta)` entries, e.g. when
`lambda[n]` is longer than `theta`. -/
theorem log_mix_short_lambda_faults_before_size_check :
    log_mixD (fun x => x) (fun x => x) [Dbl.fin 1, Dbl.fin 0]
        [[Dbl.fin 0]] 3 = (3, .fault)
    ∧ log_mixD (fun x => x) (fun x => x) [Dbl.fin 1]
        [[Dbl.fin 0, Dbl.fin 0]] 3
      = (3, .thrown (.inconsistentSizes "log_mix" "theta" "lambda")) := by
  constructor <;> decide

end Stan
